import Mathlib

/-
Verification of the path-addressed TOML document engine of tomlcli.

This file gives a shallow embedding of the core functions of
src/tomlcli.py (parse_key_path, get_nested_value, set_nested_value,
remove_nested_key, rename_nested_key, parse_snippet, parse_value,
deep_merge_tomlkit) and proves properties about them.

Modelling conventions:
  - tomlkit in-memory values are modelled by the inductive type `Node`
    (tables, arrays, booleans, integers, floats, strings).  The path
    operations test isinstance(x, (dict, tomlkit.items.Table)), which
    every tomlkit container class satisfies, so `Node.table` models all
    of them uniformly there.  deep_merge_tomlkit instead tests
    isinstance(x, tomlkit.items.Table), which the root TOMLDocument and
    InlineTable values do not satisfy, so the merge is modelled on the
    refined type `TkNode`, which records the class of each container.
    Date-time values are not modelled.
  - A table is a list of key/value pairs in insertion order.  Since
    Python dicts and tomlkit tables have unique keys, lookup, update and
    deletion act on the first occurrence of a key; well-formedness
    (unique keys at every level) is the predicate `wfT`.
  - Python exceptions are the error type `PyErr` (KeyError, TypeError,
    IndexError); the error messages are not modelled, only the class.
  - In-place mutation is modelled by returning the updated document.
    The mutating operations return `TDoc × Option PyErr`, where the first
    component is the state of the document at the moment the exception
    (if any) is raised; doc comments on each definition justify, from the
    position of the raise statements in the Python source, why the
    returned state is exact.
  - Machine integers do not occur (Python integers are unbounded); floats
    are modelled as `PyFloat` (an exact rational, infinity or nan), which
    is adequate because the engine only parses and stores floats, never
    computes with them.
-/

namespace Tomlcli

/-! ## Python string helpers -/

/-- Whitespace characters removed by Python str.strip (ASCII model). -/
def isPySpace (c : Char) : Bool :=
  c == ' ' || c == '\t' || c == '\n' || c == '\r' || c == '\x0b' || c == '\x0c'

/-- Python str.strip (ASCII whitespace model). -/
def pyStrip (s : String) : String :=
  ⟨((s.data.dropWhile isPySpace).reverse.dropWhile isPySpace).reverse⟩

/-- Python str.lower (ASCII model). -/
def strLower (s : String) : String :=
  ⟨s.data.map Char.toLower⟩

/-- Split a character list at every occurrence of the separator; the
result always has one part more than the number of separators, matching
Python str.split with an explicit separator. -/
def splitOnChar (sep : Char) : List Char → List (List Char)
  | [] => [[]]
  | c :: t =>
      match splitOnChar sep t with
      | [] => [[]]
      | h :: rest =>
          if c == sep then [] :: h :: rest else (c :: h) :: rest

/-- Does the character list start with the given pattern list. -/
def listStartsWith : List Char → List Char → Bool
  | _, [] => true
  | [], _ :: _ => false
  | a :: as, b :: bs => a == b && listStartsWith as bs

/-- Does the character list contain the pattern as a contiguous sublist. -/
def listHasSub : List Char → List Char → Bool
  | [], needle => listStartsWith [] needle
  | h :: t, needle => listStartsWith (h :: t) needle || listHasSub t needle

/-- Python substring containment: needle in hay. -/
def strHasSub (hay needle : String) : Bool :=
  listHasSub hay.data needle.data

/-! ## Data model -/

/-- Python float values: an exact rational, a signed infinity, or nan. -/
inductive PyFloat where
  | finite (q : ℚ)
  | inf (neg : Bool)
  | nan
  deriving DecidableEq

/-- Python exception classes raised by the engine. -/
inductive PyErr where
  | keyError
  | typeError
  | indexError
  deriving DecidableEq

/-- In-memory document node: tomlkit tables (and inline tables), arrays,
and the scalar kinds the engine handles. -/
inductive Node where
  | table (entries : List (String × Node))
  | arr (elems : List Node)
  | boolV (b : Bool)
  | intV (n : Int)
  | floatV (f : PyFloat)
  | strV (s : String)

/-- A document is the entry list of the root table. -/
abbrev TDoc := List (String × Node)

/-- Is the node a table. -/
def isTable : Node → Bool
  | .table _ => true
  | _ => false

/-- Is the node an array. -/
def isArr : Node → Bool
  | .arr _ => true
  | _ => false

/-- Is the optional node present and a table. -/
def isTableOpt : Option Node → Bool
  | some (.table _) => true
  | _ => false

/-! ## Table (dict) primitives

A Python dict has unique keys; these act on the first occurrence. -/

/-- Dict lookup: value of the first entry with the given key. -/
def tblLookup : TDoc → String → Option Node
  | [], _ => none
  | (k, v) :: rest, key => if k = key then some v else tblLookup rest key

/-- Python membership test key in dict. -/
def tblHas : TDoc → String → Bool
  | [], _ => false
  | (k, _) :: rest, key => k == key || tblHas rest key

/-- Python dict assignment d[key] = v: replaces the value in place when
the key is present, otherwise appends the new entry at the end. -/
def tblSet : TDoc → String → Node → TDoc
  | [], key, v => [(key, v)]
  | (k, w) :: rest, key, v =>
      if k = key then (k, v) :: rest else (k, w) :: tblSet rest key v

/-- Python dict deletion del d[key]: removes the entry (the caller checks
presence first; on an absent key this is the identity). -/
def tblDel : TDoc → String → TDoc
  | [], _ => []
  | (k, w) :: rest, key =>
      if k = key then rest else (k, w) :: tblDel rest key

/-! ## Well-formedness: unique keys at every table level. -/

mutual

/-- Node well-formedness: all tables reachable through tables have
pairwise distinct keys (array contents are not walked by the engine). -/
def wfN : Node → Bool
  | .table es => wfT es
  | _ => true

/-- Entry-list well-formedness: keys pairwise distinct, values wf. -/
def wfT : TDoc → Bool
  | [] => true
  | (k, v) :: rest => !(tblHas rest k) && wfN v && wfT rest

end

/-! ## Path operations (src/tomlcli.py lines 25-66) -/

/-- Model of parse_key_path: split on the dot, strip each segment,
keep the non-empty stripped segments. -/
def parse_key_path (key_path : String) : List String :=
  (((splitOnChar '.' key_path.data).map
    (fun part => pyStrip ⟨part⟩)).filter (fun seg => seg ≠ ""))

/-- Python membership test seg in current, as used by get_nested_value:
key membership on a dict/table, substring test on a string, element
membership on a list (a string segment equals only string elements),
and a TypeError on the remaining scalar kinds. -/
def pyContains : Node → String → Except PyErr Bool
  | .table es, seg => .ok (tblHas es seg)
  | .strV s, seg => .ok (strHasSub s seg)
  | .arr xs, seg =>
      .ok (xs.any (fun x => match x with | .strV s => s == seg | _ => false))
  | .boolV _, _ => .error .typeError
  | .intV _, _ => .error .typeError
  | .floatV _, _ => .error .typeError

/-- Python indexing current[seg] with a string index, as used by
get_nested_value after a successful membership test: dict lookup on a
table (KeyError when absent), TypeError on every other kind. -/
def pyGetItem : Node → String → Except PyErr Node
  | .table es, seg =>
      match tblLookup es seg with
      | some v => .ok v
      | none => .error .keyError
  | _, _ => .error .typeError

/-- The loop of get_nested_value: walk the segments from the current
node; raise KeyError when the membership test fails, otherwise index. -/
def getSegs : Node → List String → Except PyErr Node
  | current, [] => .ok current
  | current, seg :: rest =>
      match pyContains current seg with
      | .error e => .error e
      | .ok false => .error .keyError
      | .ok true =>
          match pyGetItem current seg with
          | .error e => .error e
          | .ok next => getSegs next rest

/-- Model of get_nested_value: read-only walk from the root table. -/
def get_nested_value (doc : TDoc) (key_path : String) : Except PyErr Node :=
  getSegs (.table doc) (parse_key_path key_path)

/-- The loop of set_nested_value, on a non-empty segment list: for each
intermediate segment, descend into the existing child table, or replace
a missing or non-table child with a new empty table and descend into
that; assign the value at the final segment. -/
def setSegs : TDoc → List String → Node → TDoc
  | es, [], _ => es
  | es, [last], v => tblSet es last v
  | es, seg :: rest₁ :: rest₂, v =>
      let child : TDoc :=
        match tblLookup es seg with
        | some (.table c) => c
        | _ => []
      tblSet es seg (.table (setSegs child (rest₁ :: rest₂) v))

/-- Model of set_nested_value.  On an empty segment list the loop body
never runs and segments[-1] raises IndexError before any assignment, so
the document is returned unchanged; on a non-empty segment list no
statement of the function can raise, so it always succeeds. -/
def set_nested_value (doc : TDoc) (key_path : String) (value : Node) :
    TDoc × Option PyErr :=
  match parse_key_path key_path with
  | [] => (doc, some .indexError)
  | seg :: rest => (setSegs doc (seg :: rest) value, none)

/-- The loop of remove_nested_key, on a non-empty segment list: every
intermediate segment must be present and a table (KeyError otherwise),
the final segment must be present in the parent (KeyError otherwise),
and then the final key is deleted. -/
def removeSegs : TDoc → List String → Except PyErr TDoc
  | _, [] => .error .indexError
  | es, [last] =>
      if tblHas es last then .ok (tblDel es last) else .error .keyError
  | es, seg :: rest₁ :: rest₂ =>
      match tblLookup es seg with
      | some (.table c) =>
          match removeSegs c (rest₁ :: rest₂) with
          | .ok c₂ => .ok (tblSet es seg (.table c₂))
          | .error e => .error e
      | _ => .error .keyError

/-- Model of remove_nested_key.  All raise points of the Python function
(the intermediate-segment validation, the segments[-1] access on an
empty segment list, and the final-key presence check) occur before the
single del statement, so whenever an exception is raised the document is
still unchanged and is returned as the error-time state. -/
def remove_nested_key (doc : TDoc) (key_path : String) :
    TDoc × Option PyErr :=
  match parse_key_path key_path with
  | [] => (doc, some .indexError)
  | seg :: rest =>
      match removeSegs doc (seg :: rest) with
      | .ok d => (d, none)
      | .error e => (doc, some e)

/-- Model of rename_nested_key: read the value at the old path, remove
the old path, set the new path to the read value; an exception from any
step propagates with the document state that step left behind. -/
def rename_nested_key (doc : TDoc) (old_path new_path : String) :
    TDoc × Option PyErr :=
  match get_nested_value doc old_path with
  | .error e => (doc, some e)
  | .ok old_val =>
      match remove_nested_key doc old_path with
      | (d, some e) => (d, some e)
      | (d, none) => set_nested_value d new_path old_val

/-- The composition the specification equates rename with: value =
get(doc, oldPath); remove(doc, oldPath); set(doc, newPath, value), each
step applied to the state the previous step left behind, the first
exception propagating. -/
def rename_composed (doc : TDoc) (old_path new_path : String) :
    TDoc × Option PyErr :=
  match get_nested_value doc old_path with
  | .error e => (doc, some e)
  | .ok value =>
      match remove_nested_key doc old_path with
      | (d, some e) => (d, some e)
      | (d, none) => set_nested_value d new_path value

/-! ## Deep merge (src/tomlcli.py lines 181-206)

The isinstance checks of deep_merge_tomlkit are class-exact: they test
tomlkit.items.Table, which neither the root TOMLDocument returned by
tomlkit.parse (a Container) nor an InlineTable value satisfies, though
both are dict-like mappings.  The path operations above check
isinstance(x, (dict, tomlkit.items.Table)), which all three container
classes satisfy, so `Node` (one table constructor for every dict-like
container) is the exact abstraction for them; the merge needs the exact
class, so it is modelled on `TkNode`, which records the class of each
container.  In particular, bulk-set calls deep_merge_tomlkit with the
parsed root TOMLDocument as the target, which is not an items.Table,
so that call returns the source verbatim. -/

/-- A tomlkit runtime value together with the exact class of each
container: the root-document class, the Table item class and the
InlineTable class are distinguished because the merge dispatches on
isinstance(x, tomlkit.items.Table), which only the second satisfies. -/
inductive TkNode where
  | document (entries : List (String × TkNode))
  | table (entries : List (String × TkNode))
  | inlineTable (entries : List (String × TkNode))
  | arr (elems : List TkNode)
  | boolV (b : Bool)
  | intV (n : Int)
  | floatV (f : PyFloat)
  | strV (s : String)

/-- Entry list of a classed container. -/
abbrev TkDoc := List (String × TkNode)

/-- Dict lookup on a classed entry list (first occurrence). -/
def tkLookup : TkDoc → String → Option TkNode
  | [], _ => none
  | (k, v) :: rest, key => if k = key then some v else tkLookup rest key

/-- Python dict assignment on a classed entry list: replace in place
when the key is present, otherwise append. -/
def tkSet : TkDoc → String → TkNode → TkDoc
  | [], key, v => [(key, v)]
  | (k, w) :: rest, key, v =>
      if k = key then (k, v) :: rest else (k, w) :: tkSet rest key v

mutual

/-- The table branch of deep_merge_tomlkit: iterate the source entries
in order over the accumulated target. -/
def tkMergeEntries : TkDoc → TkDoc → TkDoc
  | tes, [] => tes
  | tes, (k, v) :: rest => tkMergeEntries (tkMergeStep tes k v) rest
  termination_by _ ses => sizeOf ses

/-- The loop body of deep_merge_tomlkit: when the key is present in the
target and both the existing and the incoming values are Table items,
merge the sub-tables in place; otherwise (in particular when either
value is an InlineTable) assign the incoming value wholesale. -/
def tkMergeStep (tes : TkDoc) (k : String) (v : TkNode) : TkDoc :=
  match tkLookup tes k, v with
  | some (.table tc), .table sc => tkSet tes k (.table (tkMergeEntries tc sc))
  | _, _ => tkSet tes k v
  termination_by sizeOf v

end

/-- Digit run with single underscores allowed between digits: consumes
the longest valid run, returning the accumulated value, the number of
digits consumed, and the rest (stopping before an underscore that is
not followed by a digit). -/
def digRunAux : Nat → Nat → List Char → Nat × Nat × List Char
  | acc, n, [] => (acc, n, [])
  | acc, n, c :: t =>
      if c.isDigit then digRunAux (acc * 10 + (c.toNat - 48)) (n + 1) t
      else if c == '_' then
        match t with
        | d :: t₂ =>
            if d.isDigit then digRunAux (acc * 10 + (d.toNat - 48)) (n + 1) t₂
            else (acc, n, c :: t)
        | [] => (acc, n, c :: t)
      else (acc, n, c :: t)

/-- Digit run that must start with a digit. -/
def digRun : List Char → Option (Nat × Nat × List Char)
  | c :: t => if c.isDigit then some (digRunAux (c.toNat - 48) 1 t) else none
  | [] => none

/-- Model of Python int(s) in base 10: strip whitespace, optional sign,
a digit run with single underscores between digits, and nothing else. -/
def pyIntOfString (s : String) : Option Int :=
  let cs := (pyStrip s).data
  let signed : Bool × List Char :=
    match cs with
    | '+' :: t => (false, t)
    | '-' :: t => (true, t)
    | _ => (false, cs)
  match digRun signed.2 with
  | some (v, _, []) => some (if signed.1 then -(v : Int) else (v : Int))
  | _ => none

/-- Scale a rational by a signed power of ten. -/
def mulPow10 (q : ℚ) (e : Int) : ℚ :=
  if 0 ≤ e then q * (10 : ℚ) ^ e.toNat else q / (10 : ℚ) ^ (-e).toNat

/-- The exact rational value of a decimal literal with integer part,
fraction digits and exponent. -/
def mkFloatQ (neg : Bool) (ip fp fc : Nat) (e : Int) : ℚ :=
  let base : ℚ := (ip : ℚ) + (fp : ℚ) / (10 : ℚ) ^ fc
  let q := mulPow10 base e
  if neg then -q else q

/-- Model of Python float(s): strip whitespace, optional sign, then inf,
infinity or nan (case-insensitive), or a fixed-point literal
digits [. digits] [e sign digits] with at least one mantissa digit and
single underscores allowed inside digit runs.  The value is modelled as
the exact rational denoted by the literal (Python rounds it to the
nearest IEEE double; the engine only stores the value, so the exact
model is adequate). -/
def pyFloatOfString (s : String) : Option PyFloat :=
  let cs := (pyStrip s).data
  let signed : Bool × List Char :=
    match cs with
    | '+' :: t => (false, t)
    | '-' :: t => (true, t)
    | _ => (false, cs)
  let neg := signed.1
  let cs₂ := signed.2
  let low := cs₂.map Char.toLower
  if low = "inf".data ∨ low = "infinity".data then some (.inf neg)
  else if low = "nan".data then some .nan
  else
    let ipPart : Nat × Nat × List Char :=
      match digRun cs₂ with
      | some p => p
      | none => (0, 0, cs₂)
    let ip := ipPart.1
    let ipCnt := ipPart.2.1
    let fracPart : Nat × Nat × List Char :=
      match ipPart.2.2 with
      | '.' :: t =>
          match digRun t with
          | some p => p
          | none => (0, 0, t)
      | r => (0, 0, r)
    let fp := fracPart.1
    let fpCnt := fracPart.2.1
    if ipCnt + fpCnt = 0 then none
    else
      match fracPart.2.2 with
      | [] => some (.finite (mkFloatQ neg ip fp fpCnt 0))
      | c :: t =>
          if c == 'e' || c == 'E' then
            let esigned : Bool × List Char :=
              match t with
              | '+' :: u => (false, u)
              | '-' :: u => (true, u)
              | _ => (false, t)
            match digRun esigned.2 with
            | some (ev, _, []) =>
                some (.finite (mkFloatQ neg ip fp fpCnt
                  (if esigned.1 then -(ev : Int) else (ev : Int))))
            | _ => none
          else none

/-! ## TOML inline value parsing (model of the tomlkit snippet parse)

Modelled from the TOML value grammar as enforced by tomlkit for the
snippet use in parse_snippet.  Covered: booleans, decimal integers,
decimal floats (including inf and nan), basic and literal single-line
strings with the standard escapes, arrays (with whitespace, newlines
and comments between elements), and inline tables with bare or quoted
keys.  Not modelled: date-times, hexadecimal, octal and binary
integers, multi-line strings, and dotted keys inside inline tables;
inputs using those parse as errors here.  tomlkit parses the snippet as
the document x = snippet, so material after the value that forms
further valid lines would be tolerated by tomlkit; the model requires
only whitespace and comments after the value. -/

/-- Whitespace including newlines. -/
def isTomlWsNl (c : Char) : Bool :=
  c == ' ' || c == '\t' || c == '\n' || c == '\r'

/-- Skip spaces and tabs. -/
def skipWs : List Char → List Char
  | c :: t => if c == ' ' || c == '\t' then skipWs t else c :: t
  | [] => []

mutual

/-- Skip whitespace, newlines and comments. -/
def skipWsNlC : List Char → List Char
  | [] => []
  | c :: t =>
      if isTomlWsNl c then skipWsNlC t
      else if c == '#' then skipCmt t
      else c :: t

/-- Skip a comment body up to and including the next newline. -/
def skipCmt : List Char → List Char
  | [] => []
  | c :: t => if c == '\n' then skipWsNlC t else skipCmt t

end

/-- Value of a hexadecimal digit. -/
def hexVal (c : Char) : Option Nat :=
  if c.isDigit then some (c.toNat - 48)
  else if 'a' ≤ c && c ≤ 'f' then some (c.toNat - 87)
  else if 'A' ≤ c && c ≤ 'F' then some (c.toNat - 55)
  else none

/-- Body of a basic (double-quoted) single-line string, after the
opening quote: returns the unescaped content and the rest after the
closing quote. -/
def pBasicStr : List Char → Option (List Char × List Char)
  | [] => none
  | '"' :: t => some ([], t)
  | '\\' :: 'n' :: t => (pBasicStr t).map (fun p => ('\n' :: p.1, p.2))
  | '\\' :: 't' :: t => (pBasicStr t).map (fun p => ('\t' :: p.1, p.2))
  | '\\' :: 'r' :: t => (pBasicStr t).map (fun p => ('\r' :: p.1, p.2))
  | '\\' :: '"' :: t => (pBasicStr t).map (fun p => ('"' :: p.1, p.2))
  | '\\' :: '\\' :: t => (pBasicStr t).map (fun p => ('\\' :: p.1, p.2))
  | '\\' :: 'b' :: t => (pBasicStr t).map (fun p => ('\x08' :: p.1, p.2))
  | '\\' :: 'f' :: t => (pBasicStr t).map (fun p => ('\x0c' :: p.1, p.2))
  | '\\' :: 'u' :: a :: b :: c :: d :: t =>
      (match hexVal a, hexVal b, hexVal c, hexVal d with
       | some x, some y, some z, some w =>
           (pBasicStr t).map
             (fun p => (Char.ofNat (((x * 16 + y) * 16 + z) * 16 + w) :: p.1, p.2))
       | _, _, _, _ => none)
  | '\\' :: _ => none
  | c :: t =>
      if c == '\n' then none
      else (pBasicStr t).map (fun p => (c :: p.1, p.2))

/-- Body of a literal (single-quoted) single-line string, after the
opening quote. -/
def pLitStr : List Char → Option (List Char × List Char)
  | [] => none
  | c :: t =>
      if c == '\'' then some ([], t)
      else if c == '\n' then none
      else (pLitStr t).map (fun p => (c :: p.1, p.2))

/-- TOML decimal number: optional sign, inf or nan, or a digit run with
no leading zero on the integer part, an optional fraction (the dot
requires digits after it) and an optional exponent; an integer when
neither fraction nor exponent is present. -/
def pTomlNum (cs : List Char) : Option (Node × List Char) :=
  let signed : Bool × List Char :=
    match cs with
    | '+' :: t => (true, t)
    | '-' :: t => (true, t)
    | _ => (false, cs)
  let neg : Bool :=
    match cs with
    | '-' :: _ => true
    | _ => false
  let cs₂ := signed.2
  if listStartsWith cs₂ "inf".data then some (.floatV (.inf neg), cs₂.drop 3)
  else if listStartsWith cs₂ "nan".data then some (.floatV .nan, cs₂.drop 3)
  else
    match digRun cs₂ with
    | none => none
    | some (ip, ipCnt, cs₃) =>
        if listStartsWith cs₂ ['0'] && decide (2 ≤ ipCnt) then none
        else
          let fracPart : Option (Nat × Nat × List Char) :=
            match cs₃ with
            | '.' :: t =>
                match digRun t with
                | some p => some p
                | none => none
            | r => some (0, 0, r)
          match fracPart with
          | none => none
          | some (fp, fpCnt, cs₄) =>
              let hasFrac : Bool :=
                match cs₃ with
                | '.' :: _ => true
                | _ => false
              match cs₄ with
              | c :: t =>
                  if c == 'e' || c == 'E' then
                    let esigned : Bool × List Char :=
                      match t with
                      | '+' :: u => (false, u)
                      | '-' :: u => (true, u)
                      | _ => (false, t)
                    match digRun esigned.2 with
                    | some (ev, _, r) =>
                        some (.floatV (.finite (mkFloatQ neg ip fp fpCnt
                          (if esigned.1 then -(ev : Int) else (ev : Int)))), r)
                    | none => none
                  else if hasFrac then
                    some (.floatV (.finite (mkFloatQ neg ip fp fpCnt 0)), cs₄)
                  else
                    some (.intV (if neg then -(ip : Int) else (ip : Int)), cs₄)
              | [] =>
                  if hasFrac then
                    some (.floatV (.finite (mkFloatQ neg ip fp fpCnt 0)), [])
                  else
                    some (.intV (if neg then -(ip : Int) else (ip : Int)), [])

/-- Characters allowed in a TOML bare key. -/
def isBareKeyChar (c : Char) : Bool :=
  c.isAlphanum || c == '_' || c == '-'

/-- A TOML key inside an inline table: bare, basic-quoted or
literal-quoted. -/
def pKey : List Char → Option (String × List Char)
  | '"' :: t => (pBasicStr t).map (fun p => (⟨p.1⟩, p.2))
  | '\'' :: t => (pLitStr t).map (fun p => (⟨p.1⟩, p.2))
  | c :: t =>
      if isBareKeyChar c then
        some (⟨c :: t.takeWhile isBareKeyChar⟩, t.dropWhile isBareKeyChar)
      else none
  | [] => none

mutual

/-- One TOML value (the fuel bounds the recursion depth and is at least
the input length at the top-level call). -/
def pVal : Nat → List Char → Option (Node × List Char)
  | 0, _ => none
  | _ + 1, [] => none
  | fuel + 1, c :: t =>
      if c == '"' then (pBasicStr t).map (fun p => (.strV ⟨p.1⟩, p.2))
      else if c == '\'' then (pLitStr t).map (fun p => (.strV ⟨p.1⟩, p.2))
      else if c == '[' then
        match skipWsNlC t with
        | ']' :: r => some (.arr [], r)
        | r => (pArrElems fuel r).map (fun p => (.arr p.1, p.2))
      else if c == '{' then
        match skipWs t with
        | '}' :: r => some (.table [], r)
        | r => (pInlineEntries fuel r).map (fun p => (.table p.1, p.2))
      else if listStartsWith (c :: t) "true".data then some (.boolV true, t.drop 3)
      else if listStartsWith (c :: t) "false".data then some (.boolV false, t.drop 4)
      else pTomlNum (c :: t)

/-- Elements of a non-empty array, whitespace already skipped; a
trailing comma is allowed. -/
def pArrElems : Nat → List Char → Option (List Node × List Char)
  | 0, _ => none
  | fuel + 1, cs =>
      match pVal fuel cs with
      | none => none
      | some (v, r) =>
          match skipWsNlC r with
          | ',' :: r₂ =>
              (match skipWsNlC r₂ with
               | ']' :: r₃ => some ([v], r₃)
               | r₃ => (pArrElems fuel r₃).map (fun p => (v :: p.1, p.2)))
          | ']' :: r₂ => some ([v], r₂)
          | _ => none

/-- Entries of a non-empty inline table, whitespace already skipped; no
trailing comma, duplicate keys rejected. -/
def pInlineEntries : Nat → List Char → Option (TDoc × List Char)
  | 0, _ => none
  | fuel + 1, cs =>
      match pKey cs with
      | none => none
      | some (k, r) =>
          match skipWs r with
          | '=' :: r₂ =>
              (match pVal fuel (skipWs r₂) with
               | none => none
               | some (v, r₃) =>
                   match skipWs r₃ with
                   | ',' :: r₄ =>
                       (match pInlineEntries fuel (skipWs r₄) with
                        | some (es, r₅) =>
                            if tblHas es k then none else some ((k, v) :: es, r₅)
                        | none => none)
                   | '}' :: r₄ => some ([(k, v)], r₄)
                   | _ => none)
          | _ => none

end

/-- Parse a complete TOML value: the value followed only by whitespace,
newlines and comments. -/
def tomlParseTop (s : String) : Option Node :=
  match pVal (s.data.length + 1) s.data with
  | some (v, rest) => if skipWsNlC rest = [] then some v else none
  | none => none

/-- Model of parse_snippet: strip the input, and when the stripped text
starts with a brace or a bracket, parse it as a TOML inline table or
array (the model of tomlkit.parse applied to a key assignment); any
parse exception yields none, as does any other input. -/
def parse_snippet (snippet_str : String) : Option Node :=
  let s := pyStrip snippet_str
  match s.data with
  | c :: _ => if c == '{' || c == '[' then tomlParseTop s else none
  | [] => none

/-- Model of parse_value: true or false on the trimmed lowercased
input; otherwise a structured snippet when parse_snippet succeeds;
otherwise a Python int parse, then a Python float parse, on the raw
input; otherwise the original raw string unchanged. -/
def parse_value (raw_value : String) : Node :=
  let val := strLower (pyStrip raw_value)
  if val = "true" then .boolV true
  else if val = "false" then .boolV false
  else
    match parse_snippet raw_value with
    | some item => item
    | none =>
        match pyIntOfString raw_value with
        | some n => .intV n
        | none =>
            match pyFloatOfString raw_value with
            | some f => .floatV f
            | none => .strV raw_value

/-- Is the first segment list a prefix of the second. -/
def listIsPre : List String → List String → Bool
  | [], _ => true
  | _ :: _, [] => false
  | a :: as, b :: bs => a == b && listIsPre as bs

/-! ## Lemmas about the table primitives -/

theorem tblLookup_tblSet_self (es : TDoc) (k : String) (v : Node) :
    tblLookup (tblSet es k v) k = some v := by
  induction es with
  | nil => simp [tblSet, tblLookup]
  | cons hd tl ih =>
      obtain ⟨k₀, v₀⟩ := hd
      by_cases h : k₀ = k
      · simp [tblSet, tblLookup, h]
      · simp [tblSet, tblLookup, h, ih]

theorem tblLookup_tblSet_ne (es : TDoc) (k : String) (v : Node) (k' : String)
    (h : k' ≠ k) : tblLookup (tblSet es k v) k' = tblLookup es k' := by
  have hne : ¬ k = k' := fun hh => h hh.symm
  induction es with
  | nil => simp [tblSet, tblLookup, hne]
  | cons hd tl ih =>
      obtain ⟨k₀, v₀⟩ := hd
      by_cases h₀ : k₀ = k
      · subst h₀
        simp [tblSet, tblLookup, hne]
      · simp [tblSet, tblLookup, h₀, ih]

theorem tblHas_eq_isSome (es : TDoc) (k : String) :
    tblHas es k = (tblLookup es k).isSome := by
  induction es with
  | nil => simp [tblHas, tblLookup]
  | cons hd tl ih =>
      obtain ⟨k₀, v₀⟩ := hd
      by_cases h : k₀ = k
      · simp [tblHas, tblLookup, h]
      · simp [tblHas, tblLookup, h, ih]

theorem tblHas_of_lookup {es : TDoc} {k : String} {v : Node}
    (h : tblLookup es k = some v) : tblHas es k = true := by
  simp [tblHas_eq_isSome, h]

theorem tblLookup_none_of_not_has {es : TDoc} {k : String}
    (h : tblHas es k = false) : tblLookup es k = none := by
  rw [tblHas_eq_isSome] at h
  exact Option.not_isSome_iff_eq_none.mp (by simp [h])

theorem tblHas_tblSet_self (es : TDoc) (k : String) (v : Node) :
    tblHas (tblSet es k v) k = true := by
  simp [tblHas_eq_isSome, tblLookup_tblSet_self]

theorem tblHas_tblSet_ne (es : TDoc) (k : String) (v : Node) (k' : String)
    (h : k' ≠ k) : tblHas (tblSet es k v) k' = tblHas es k' := by
  simp [tblHas_eq_isSome, tblLookup_tblSet_ne es k v k' h]

theorem wfN_of_lookup {es : TDoc} {k : String} {v : Node}
    (hw : wfT es = true) (h : tblLookup es k = some v) : wfN v = true := by
  induction es with
  | nil => simp [tblLookup] at h
  | cons hd tl ih =>
      obtain ⟨k₀, v₀⟩ := hd
      simp only [wfT, Bool.and_eq_true] at hw
      by_cases h₀ : k₀ = k
      · simp [tblLookup, h₀] at h
        exact h ▸ hw.1.2
      · simp [tblLookup, h₀] at h
        exact ih hw.2 h

theorem tblHas_tblDel_self {es : TDoc} {k : String}
    (hw : wfT es = true) : tblHas (tblDel es k) k = false := by
  induction es with
  | nil => simp [tblDel, tblHas]
  | cons hd tl ih =>
      obtain ⟨k₀, v₀⟩ := hd
      simp only [wfT, Bool.and_eq_true] at hw
      by_cases h₀ : k₀ = k
      · subst h₀
        simpa [tblDel] using hw.1.1
      · simp [tblDel, tblHas, h₀, ih hw.2]

/-! ## Lemmas about the path walks -/

theorem getSegs_nil (current : Node) : getSegs current [] = .ok current := rfl

theorem getSegs_table_hit {es : TDoc} {seg : String} {v : Node}
    (rest : List String) (h : tblLookup es seg = some v) :
    getSegs (.table es) (seg :: rest) = getSegs v rest := by
  simp [getSegs, pyContains, pyGetItem, tblHas_of_lookup h, h]

theorem getSegs_table_miss {es : TDoc} {seg : String} (rest : List String)
    (h : tblHas es seg = false) :
    getSegs (.table es) (seg :: rest) = .error .keyError := by
  simp [getSegs, pyContains, h]

/-- After a set at a non-empty path, a get along the same path returns
the value just written. -/
theorem setSegs_getSegs :
    ∀ (segs : List String) (es : TDoc) (v : Node), segs ≠ [] →
      getSegs (.table (setSegs es segs v)) segs = .ok v
  | [], _, _, h => absurd rfl h
  | [last], es, v, _ => by
      rw [show setSegs es [last] v = tblSet es last v from rfl,
        getSegs_table_hit [] (tblLookup_tblSet_self es last v)]
      rfl
  | seg :: r₁ :: r₂, es, v, _ => by
      rw [show setSegs es (seg :: r₁ :: r₂) v
          = tblSet es seg (.table (setSegs
              (match tblLookup es seg with
               | some (.table c) => c
               | _ => []) (r₁ :: r₂) v)) from rfl,
        getSegs_table_hit (r₁ :: r₂) (tblLookup_tblSet_self es seg _)]
      exact setSegs_getSegs (r₁ :: r₂) _ v (by simp)

/-- After a successful remove, a get along the same path raises
KeyError, provided the document has unique keys at every level. -/
theorem removeSegs_getSegs :
    ∀ (segs : List String) (es es' : TDoc), wfT es = true →
      removeSegs es segs = .ok es' →
      getSegs (.table es') segs = .error .keyError
  | [], _, _, _, h => by simp [removeSegs] at h
  | [last], es, es', hw, h => by
      rw [removeSegs] at h
      by_cases hh : tblHas es last = true
      · simp [hh] at h
        subst h
        exact getSegs_table_miss [] (tblHas_tblDel_self hw)
      · simp [Bool.not_eq_true _ |>.mp hh] at h
  | seg :: r₁ :: r₂, es, es', hw, h => by
      rw [removeSegs] at h
      rcases hl : tblLookup es seg with _ | c
      · rw [hl] at h; simp at h
      · rcases c with cs | _ | _ | _ | _ | _
        all_goals rw [hl] at h
        case table =>
          rcases hr : removeSegs cs (r₁ :: r₂) with e | c₂
          all_goals simp only [hr] at h
          · simp at h
          · simp at h
            subst h
            rw [getSegs_table_hit (r₁ :: r₂) (tblLookup_tblSet_self es seg _)]
            exact removeSegs_getSegs (r₁ :: r₂) cs c₂
              (by simpa [wfN] using wfN_of_lookup hw hl) hr
        all_goals simp at h

theorem getSegs_str (s seg : String) (rest : List String) :
    getSegs (.strV s) (seg :: rest) =
      if strHasSub s seg then .error .typeError else .error .keyError := by
  by_cases h : strHasSub s seg <;> simp [getSegs, pyContains, pyGetItem, h]

theorem getSegs_arr (xs : List Node) (seg : String) (rest : List String) :
    getSegs (.arr xs) (seg :: rest) =
      if xs.any (fun x => match x with | .strV s => s == seg | _ => false)
      then .error .typeError else .error .keyError := by
  by_cases h : xs.any (fun x => match x with | .strV s => s == seg | _ => false)
    <;> simp [getSegs, pyContains, pyGetItem, h]

theorem getSegs_bool (b : Bool) (seg : String) (rest : List String) :
    getSegs (.boolV b) (seg :: rest) = .error .typeError := rfl

theorem getSegs_int (n : Int) (seg : String) (rest : List String) :
    getSegs (.intV n) (seg :: rest) = .error .typeError := rfl

theorem getSegs_float (f : PyFloat) (seg : String) (rest : List String) :
    getSegs (.floatV f) (seg :: rest) = .error .typeError := rfl

/-- A set at a non-empty segment list always rewrites the first segment
of the target table. -/
theorem setSegs_cons_eq (es : TDoc) (b : String) (bs : List String) (v : Node) :
    ∃ X, setSegs es (b :: bs) v = tblSet es b X := by
  cases bs with
  | nil => exact ⟨v, rfl⟩
  | cons r₁ r₂ => exact ⟨_, rfl⟩

/-- After a successful remove of an old path, a set at a new path that
neither is a prefix of the old path nor has the old path as a prefix
leaves the old path unresolvable (KeyError), given unique keys. -/
theorem removeSegs_setSegs_getSegs :
    ∀ (so sn : List String) (es es' : TDoc) (v : Node),
      listIsPre so sn = false → listIsPre sn so = false →
      wfT es = true → removeSegs es so = .ok es' →
      getSegs (.table (setSegs es' sn v)) so = .error .keyError
  | [], _, _, _, _, _, _, _, hrem => by simp [removeSegs] at hrem
  | _ :: _, [], _, _, _, _, hq, _, _ => by simp [listIsPre] at hq
  | [a], b :: bs, es, es', v, hp, _, hw, hrem => by
      have hab : ¬ a = b := by simpa [listIsPre] using hp
      rw [removeSegs] at hrem
      by_cases hh : tblHas es a = true
      · rw [if_pos hh] at hrem
        have hes : es' = tblDel es a := by injection hrem with h; exact h.symm
        subst hes
        obtain ⟨X, hX⟩ := setSegs_cons_eq (tblDel es a) b bs v
        rw [hX]
        apply getSegs_table_miss
        rw [tblHas_tblSet_ne _ _ _ _ hab]
        exact tblHas_tblDel_self hw
      · rw [if_neg hh] at hrem; simp at hrem
  | a :: s₁ :: s₂, b :: bs, es, es', v, hp, hq, hw, hrem => by
      rw [removeSegs] at hrem
      rcases hl : tblLookup es a with _ | c
      · rw [hl] at hrem; simp at hrem
      · rcases c with cs | _ | _ | _ | _ | _
        all_goals rw [hl] at hrem
        case table =>
          rcases hr : removeSegs cs (s₁ :: s₂) with e | c₂
          all_goals simp only [hr] at hrem
          · simp at hrem
          · simp at hrem
            subst hrem
            have hwc : wfT cs = true := by
              simpa [wfN] using wfN_of_lookup hw hl
            by_cases hab : a = b
            · subst hab
              have hp' : listIsPre (s₁ :: s₂) bs = false := by
                simpa [listIsPre] using hp
              have hq' : listIsPre bs (s₁ :: s₂) = false := by
                simpa [listIsPre] using hq
              cases bs with
              | nil => simp [listIsPre] at hq'
              | cons b₁ b₂ =>
                  rw [show setSegs (tblSet es a (.table c₂)) (a :: b₁ :: b₂) v
                      = tblSet (tblSet es a (.table c₂)) a
                          (.table (setSegs c₂ (b₁ :: b₂) v)) from by
                    simp [setSegs, tblLookup_tblSet_self]]
                  rw [getSegs_table_hit (s₁ :: s₂) (tblLookup_tblSet_self _ a _)]
                  exact removeSegs_setSegs_getSegs (s₁ :: s₂) (b₁ :: b₂) cs c₂ v
                    hp' hq' hwc hr
            · obtain ⟨X, hX⟩ := setSegs_cons_eq (tblSet es a (.table c₂)) b bs v
              rw [hX]
              have hla : tblLookup (tblSet (tblSet es a (.table c₂)) b X) a
                  = some (.table c₂) := by
                rw [tblLookup_tblSet_ne _ _ _ _ hab, tblLookup_tblSet_self]
              rw [getSegs_table_hit (s₁ :: s₂) hla]
              exact removeSegs_getSegs (s₁ :: s₂) cs c₂ hwc hr
        all_goals simp at hrem

/-! ## Lemmas about the deep merge -/

theorem parse_value_bool_true {raw : String}
    (h : strLower (pyStrip raw) = "true") : parse_value raw = .boolV true := by
  simp [parse_value, h]

theorem parse_value_bool_false {raw : String}
    (h : strLower (pyStrip raw) = "false") : parse_value raw = .boolV false := by
  have hne : ("false" : String) ≠ "true" := by decide
  simp [parse_value, h, hne]

theorem parse_value_snippet {raw : String} {v : Node}
    (h₁ : strLower (pyStrip raw) ≠ "true")
    (h₂ : strLower (pyStrip raw) ≠ "false")
    (h₃ : parse_snippet raw = some v) : parse_value raw = v := by
  simp [parse_value, h₁, h₂, h₃]

theorem parse_value_int {raw : String} {n : Int}
    (h₁ : strLower (pyStrip raw) ≠ "true")
    (h₂ : strLower (pyStrip raw) ≠ "false")
    (h₃ : parse_snippet raw = none)
    (h₄ : pyIntOfString raw = some n) : parse_value raw = .intV n := by
  simp [parse_value, h₁, h₂, h₃, h₄]

theorem parse_value_float {raw : String} {f : PyFloat}
    (h₁ : strLower (pyStrip raw) ≠ "true")
    (h₂ : strLower (pyStrip raw) ≠ "false")
    (h₃ : parse_snippet raw = none)
    (h₄ : pyIntOfString raw = none)
    (h₅ : pyFloatOfString raw = some f) : parse_value raw = .floatV f := by
  simp [parse_value, h₁, h₂, h₃, h₄, h₅]

theorem parse_value_fallback {raw : String}
    (h₁ : strLower (pyStrip raw) ≠ "true")
    (h₂ : strLower (pyStrip raw) ≠ "false")
    (h₃ : parse_snippet raw = none)
    (h₄ : pyIntOfString raw = none)
    (h₅ : pyFloatOfString raw = none) : parse_value raw = .strV raw := by
  simp [parse_value, h₁, h₂, h₃, h₄, h₅]

/-! ## Claims -/

/-- C1: parse_value (coerce) applies its rules in strict order for every
raw input string: a trimmed case-insensitive exact match of true or
false yields a Boolean; otherwise a successful structured-snippet parse
wins; otherwise an integer parse, then a floating-point parse, is
attempted on the raw input; otherwise the original raw string is
returned unmodified (not lowercased).  In particular coerce of true is
Boolean true, of 42 is Integer 42, of 42.5 is Float 42.5, and of hello
is String hello. -/
theorem claim_C1 :
    (∀ raw : String, strLower (pyStrip raw) = "true" →
      parse_value raw = .boolV true) ∧
    (∀ raw : String, strLower (pyStrip raw) = "false" →
      parse_value raw = .boolV false) ∧
    (∀ (raw : String) (v : Node), strLower (pyStrip raw) ≠ "true" →
      strLower (pyStrip raw) ≠ "false" → parse_snippet raw = some v →
      parse_value raw = v) ∧
    (∀ (raw : String) (n : Int), strLower (pyStrip raw) ≠ "true" →
      strLower (pyStrip raw) ≠ "false" → parse_snippet raw = none →
      pyIntOfString raw = some n → parse_value raw = .intV n) ∧
    (∀ (raw : String) (f : PyFloat), strLower (pyStrip raw) ≠ "true" →
      strLower (pyStrip raw) ≠ "false" → parse_snippet raw = none →
      pyIntOfString raw = none → pyFloatOfString raw = some f →
      parse_value raw = .floatV f) ∧
    (∀ raw : String, strLower (pyStrip raw) ≠ "true" →
      strLower (pyStrip raw) ≠ "false" → parse_snippet raw = none →
      pyIntOfString raw = none → pyFloatOfString raw = none →
      parse_value raw = .strV raw) ∧
    parse_value "true" = .boolV true ∧
    parse_value "42" = .intV 42 ∧
    parse_value "42.5" = .floatV (.finite (85 / 2)) ∧
    parse_value "hello" = .strV "hello" := by
  refine ⟨fun raw h => parse_value_bool_true h,
    fun raw h => parse_value_bool_false h,
    fun raw v h₁ h₂ h₃ => parse_value_snippet h₁ h₂ h₃,
    fun raw n h₁ h₂ h₃ h₄ => parse_value_int h₁ h₂ h₃ h₄,
    fun raw f h₁ h₂ h₃ h₄ h₅ => parse_value_float h₁ h₂ h₃ h₄ h₅,
    fun raw h₁ h₂ h₃ h₄ h₅ => parse_value_fallback h₁ h₂ h₃ h₄ h₅,
    rfl, rfl, ?_, rfl⟩
  rw [show parse_value "42.5" = .floatV (.finite (mkFloatQ false 42 5 1 0)) from rfl]
  norm_num [mkFloatQ, mulPow10]

/-- C1 witness: each ordering rule of claim_C1 applied at a concrete
input, with its hypotheses evaluated there. -/
theorem claim_C1_witness :
    parse_value " TRUE " = .boolV true ∧
    parse_value "False" = .boolV false ∧
    parse_value " [1]" = .arr [.intV 1] ∧
    parse_value "-7" = .intV (-7) ∧
    parse_value "1e3" = .floatV (.finite (mkFloatQ false 1 0 0 3)) ∧
    parse_value "Hello World" = .strV "Hello World" :=
  ⟨claim_C1.1 " TRUE " rfl,
   claim_C1.2.1 "False" rfl,
   claim_C1.2.2.1 " [1]" (.arr [.intV 1]) (by decide) (by decide) rfl,
   claim_C1.2.2.2.1 "-7" (-7) (by decide) (by decide) rfl rfl,
   claim_C1.2.2.2.2.1 "1e3" (.finite (mkFloatQ false 1 0 0 3))
     (by decide) (by decide) rfl rfl rfl,
   claim_C1.2.2.2.2.2.1 "Hello World" (by decide) (by decide) rfl rfl rfl⟩

/-- C2 counterexample: the raw argument [x,y,z] is not a valid TOML
array (bare words are not values), so parse_value does not return an
Array at all: it falls through to the raw String. -/
theorem claim_C2_counterexample :
    parse_value "[x,y,z]" = .strV "[x,y,z]" ∧
    isArr (parse_value "[x,y,z]") = false := ⟨rfl, rfl⟩

/-- C2 (amended): coerce of [x,y,z] fails the structured parse, because
bare words are not valid literals, and falls through to the String
[x,y,z]; setting a key to this raw argument and getting it back yields
that string, whose text contains x, y and z as substrings, not an
Array. -/
theorem claim_C2 :
    parse_snippet "[x,y,z]" = none ∧
    parse_value "[x,y,z]" = .strV "[x,y,z]" ∧
    set_nested_value
        [("feature_flags", Node.table
          [("beta_testers", Node.arr [Node.strV "alice", Node.strV "bob"])])]
        "feature_flags.beta_testers" (parse_value "[x,y,z]")
      = ([("feature_flags", Node.table
          [("beta_testers", Node.strV "[x,y,z]")])], none) ∧
    get_nested_value
        [("feature_flags", Node.table
          [("beta_testers", Node.strV "[x,y,z]")])]
        "feature_flags.beta_testers" = .ok (.strV "[x,y,z]") ∧
    strHasSub "[x,y,z]" "x" = true ∧
    strHasSub "[x,y,z]" "y" = true ∧
    strHasSub "[x,y,z]" "z" = true :=
  ⟨rfl, rfl, rfl, rfl, rfl, rfl, rfl⟩

/-- C3 counterexample: resolving the path a.c in a document where a is
the String ab hits a non-Table node with a segment remaining, yet the
failure is the KeyError (PathNotFound) class, the very same error a
missing key produces, not a distinct NotATable error. -/
theorem claim_C3_counterexample :
    get_nested_value [("a", Node.strV "ab")] "a.c" = .error .keyError ∧
    get_nested_value [("a", Node.strV "ab")] "b" = .error .keyError ∧
    isTable (Node.strV "ab") = false := ⟨rfl, rfl, rfl⟩

/-- C3 (amended): the get walk fails with KeyError (PathNotFound) when
the current Table lacks the segment and otherwise descends; with a
segment remaining, a Boolean, Integer or Float current node raises a
distinct TypeError, but a String or Array current node is first tested
with Python membership: a segment that is not a substring of the String
(or not an element of the Array) raises the same KeyError as a missing
key, and one that is raises TypeError at the subsequent indexing; an
exhausted path returns the final node. -/
theorem claim_C3 :
    (∀ (es : TDoc) (seg : String) (rest : List String),
      tblHas es seg = false →
      getSegs (.table es) (seg :: rest) = .error .keyError) ∧
    (∀ (es : TDoc) (seg : String) (rest : List String) (v : Node),
      tblLookup es seg = some v →
      getSegs (.table es) (seg :: rest) = getSegs v rest) ∧
    (∀ (b : Bool) (seg : String) (rest : List String),
      getSegs (.boolV b) (seg :: rest) = .error .typeError) ∧
    (∀ (n : Int) (seg : String) (rest : List String),
      getSegs (.intV n) (seg :: rest) = .error .typeError) ∧
    (∀ (f : PyFloat) (seg : String) (rest : List String),
      getSegs (.floatV f) (seg :: rest) = .error .typeError) ∧
    (∀ (s seg : String) (rest : List String),
      getSegs (.strV s) (seg :: rest) =
        if strHasSub s seg then .error .typeError else .error .keyError) ∧
    (∀ (xs : List Node) (seg : String) (rest : List String),
      getSegs (.arr xs) (seg :: rest) =
        if xs.any (fun x => match x with | .strV s => s == seg | _ => false)
        then .error .typeError else .error .keyError) ∧
    (∀ current : Node, getSegs current [] = .ok current) ∧
    (∀ (doc : TDoc) (kp : String),
      get_nested_value doc kp = getSegs (.table doc) (parse_key_path kp)) :=
  ⟨fun _ _ rest h => getSegs_table_miss rest h,
   fun _ _ rest _ h => getSegs_table_hit rest h,
   getSegs_bool, getSegs_int, getSegs_float, getSegs_str, getSegs_arr,
   getSegs_nil, fun _ _ => rfl⟩

/-- C3 witness: the two hypothesis-bearing rules of claim_C3 applied at
concrete inputs. -/
theorem claim_C3_witness :
    getSegs (.table []) ["a"] = .error .keyError ∧
    getSegs (.table [("a", Node.intV 1)]) ["a"] = getSegs (Node.intV 1) [] :=
  ⟨claim_C3.1 [] "a" [] rfl,
   claim_C3.2.1 [("a", Node.intV 1)] "a" [] (Node.intV 1) rfl⟩

/-- Intermediate step of set when the child is missing or not a table:
it is replaced by a fresh empty table filled by the rest of the walk. -/
theorem setSegs_replace_child {es : TDoc} {seg : String} (r₁ : String)
    (r₂ : List String) (v : Node)
    (h : isTableOpt (tblLookup es seg) = false) :
    setSegs es (seg :: r₁ :: r₂) v
      = tblSet es seg (.table (setSegs [] (r₁ :: r₂) v)) := by
  rcases hl : tblLookup es seg with _ | c
  · simp [setSegs, hl]
  · rw [hl] at h
    rcases c with tc | _ | _ | _ | _ | _
    · simp [isTableOpt] at h
    all_goals simp [setSegs, hl]

/-- Intermediate step of set when the child is a table: the walk
descends into it. -/
theorem setSegs_descend_child {es : TDoc} {seg : String} {c : TDoc}
    (r₁ : String) (r₂ : List String) (v : Node)
    (h : tblLookup es seg = some (.table c)) :
    setSegs es (seg :: r₁ :: r₂) v
      = tblSet es seg (.table (setSegs c (r₁ :: r₂) v)) := by
  simp [setSegs, h]

/-- C4: for every document and every key path with at least one
non-empty segment, set never fails; each intermediate segment that is
missing or present but not a Table is replaced by a new empty Table,
silently discarding whatever value was there, an intermediate segment
holding a Table is descended into, and the value is assigned at the
final segment. -/
theorem claim_C4 :
    (∀ (doc : TDoc) (kp : String) (v : Node), parse_key_path kp ≠ [] →
      (set_nested_value doc kp v).2 = none) ∧
    (∀ (es : TDoc) (seg r₁ : String) (r₂ : List String) (v : Node),
      isTableOpt (tblLookup es seg) = false →
      tblLookup (setSegs es (seg :: r₁ :: r₂) v) seg
        = some (.table (setSegs [] (r₁ :: r₂) v))) ∧
    (∀ (es : TDoc) (seg r₁ : String) (r₂ : List String) (v : Node) (c : TDoc),
      tblLookup es seg = some (.table c) →
      tblLookup (setSegs es (seg :: r₁ :: r₂) v) seg
        = some (.table (setSegs c (r₁ :: r₂) v))) ∧
    (∀ (es : TDoc) (last : String) (v : Node),
      tblLookup (setSegs es [last] v) last = some v) := by
  refine ⟨?_, ?_, ?_, ?_⟩
  · intro doc kp v h
    rcases hk : parse_key_path kp with _ | ⟨s, ss⟩
    · exact absurd hk h
    · simp [set_nested_value, hk]
  · intro es seg r₁ r₂ v h
    rw [setSegs_replace_child r₁ r₂ v h, tblLookup_tblSet_self]
  · intro es seg r₁ r₂ v c h
    rw [setSegs_descend_child r₁ r₂ v h, tblLookup_tblSet_self]
  · intro es last v
    rw [show setSegs es [last] v = tblSet es last v from rfl,
      tblLookup_tblSet_self]

/-- C4 witness: the rules of claim_C4 applied at concrete inputs,
exhibiting in particular the silent discarding of a non-table
intermediate value. -/
theorem claim_C4_witness :
    (set_nested_value [] "a.b" (Node.intV 7)).2 = none ∧
    tblLookup (setSegs [("a", Node.intV 1)] ["a", "b"] (Node.intV 7)) "a"
      = some (.table (setSegs [] ["b"] (Node.intV 7))) ∧
    tblLookup (setSegs [("a", Node.table [("c", Node.intV 2)])] ["a", "b"]
        (Node.intV 7)) "a"
      = some (.table (setSegs [("c", Node.intV 2)] ["b"] (Node.intV 7))) ∧
    tblLookup (setSegs [] ["a"] (Node.intV 7)) "a" = some (Node.intV 7) :=
  ⟨claim_C4.1 [] "a.b" (Node.intV 7) (by decide),
   claim_C4.2.1 [("a", Node.intV 1)] "a" "b" [] (Node.intV 7) rfl,
   claim_C4.2.2.1 [("a", Node.table [("c", Node.intV 2)])] "a" "b" []
     (Node.intV 7) [("c", Node.intV 2)] rfl,
   claim_C4.2.2.2 [] "a" (Node.intV 7)⟩

/-- C5: for every document, every key path with at least one non-empty
segment, and every value, a set followed by a get of the same path
returns that value. -/
theorem claim_C5 (doc : TDoc) (kp : String) (v : Node)
    (h : parse_key_path kp ≠ []) :
    get_nested_value (set_nested_value doc kp v).1 kp = .ok v := by
  rcases hk : parse_key_path kp with _ | ⟨s, ss⟩
  · exact absurd hk h
  · simp only [get_nested_value, set_nested_value, hk]
    exact setSegs_getSegs (s :: ss) doc v (by simp)

/-- C5 witness: the set and get round trip at a concrete document, path
and value. -/
theorem claim_C5_witness :
    get_nested_value
      (set_nested_value [("x", Node.boolV true)] "a.b" (Node.intV 7)).1 "a.b"
      = .ok (Node.intV 7) :=
  claim_C5 [("x", Node.boolV true)] "a.b" (Node.intV 7) (by decide)

/-- C6: remove fails with KeyError when an intermediate segment is
missing or not a Table, fails with KeyError (PathNotFound) when the
final segment is absent from the parent Table, otherwise deletes
exactly that final key; and after a successful remove, a get of the
same path fails with KeyError, given unique keys. -/
theorem claim_C6 :
    (∀ (es : TDoc) (seg r₁ : String) (r₂ : List String),
      isTableOpt (tblLookup es seg) = false →
      removeSegs es (seg :: r₁ :: r₂) = .error .keyError) ∧
    (∀ (es : TDoc) (last : String), tblHas es last = false →
      removeSegs es [last] = .error .keyError) ∧
    (∀ (es : TDoc) (last : String), tblHas es last = true →
      removeSegs es [last] = .ok (tblDel es last)) ∧
    (∀ (doc : TDoc) (kp : String) (d : TDoc), wfT doc = true →
      remove_nested_key doc kp = (d, none) →
      get_nested_value d kp = .error .keyError) := by
  refine ⟨?_, ?_, ?_, ?_⟩
  · intro es seg r₁ r₂ h
    rcases hl : tblLookup es seg with _ | c
    · simp [removeSegs, hl]
    · rw [hl] at h
      rcases c with tc | _ | _ | _ | _ | _
      · simp [isTableOpt] at h
      all_goals simp [removeSegs, hl]
  · intro es last h
    simp [removeSegs, h]
  · intro es last h
    simp [removeSegs, h]
  · intro doc kp d hw hrm
    rcases hk : parse_key_path kp with _ | ⟨s, ss⟩
    · simp [remove_nested_key, hk] at hrm
    · simp only [remove_nested_key, hk] at hrm
      rcases hr : removeSegs doc (s :: ss) with e | d'
      · rw [hr] at hrm; simp at hrm
      · rw [hr] at hrm
        simp at hrm
        rw [get_nested_value, hk, ← hrm]
        exact removeSegs_getSegs (s :: ss) doc d' hw hr

/-- C6 witness: each rule of claim_C6 applied at a concrete input. -/
theorem claim_C6_witness :
    removeSegs [("a", Node.intV 1)] ["a", "b"] = .error .keyError ∧
    removeSegs [] ["a"] = .error .keyError ∧
    removeSegs [("a", Node.intV 1)] ["a"] = .ok (tblDel [("a", Node.intV 1)] "a") ∧
    get_nested_value [] "a" = .error .keyError :=
  ⟨claim_C6.1 [("a", Node.intV 1)] "a" "b" [] rfl,
   claim_C6.2.1 [] "a" rfl,
   claim_C6.2.2.1 [("a", Node.intV 1)] "a" rfl,
   claim_C6.2.2.2 [("a", Node.intV 1)] "a" [] rfl rfl⟩

/-- C7 counterexample: renaming a.b to a.b.c succeeds, yet the old path
a.b still resolves afterwards (the set step recreated it as a table),
contradicting the clause that a get of the old path fails after every
successful rename. -/
theorem claim_C7_counterexample :
    rename_nested_key [("a", Node.table [("b", Node.intV 1)])] "a.b" "a.b.c"
      = ([("a", Node.table [("b", Node.table [("c", Node.intV 1)])])], none) ∧
    get_nested_value
      [("a", Node.table [("b", Node.table [("c", Node.intV 1)])])] "a.b"
      = .ok (Node.table [("c", Node.intV 1)]) := ⟨rfl, rfl⟩

/-- C7 (amended): rename equals the composition get, remove, set; in
successful cases a get of the new path returns the original value; and
a get of the old path fails afterwards provided neither segment list is
a prefix of the other (when the paths overlap as prefixes, the set step
can recreate the old path), given unique keys. -/
theorem claim_C7 :
    (∀ (doc : TDoc) (po pn : String),
      rename_nested_key doc po pn = rename_composed doc po pn) ∧
    (∀ (doc d : TDoc) (po pn : String) (val : Node),
      get_nested_value doc po = .ok val →
      rename_nested_key doc po pn = (d, none) →
      get_nested_value d pn = .ok val) ∧
    (∀ (doc d : TDoc) (po pn : String),
      wfT doc = true →
      listIsPre (parse_key_path po) (parse_key_path pn) = false →
      listIsPre (parse_key_path pn) (parse_key_path po) = false →
      rename_nested_key doc po pn = (d, none) →
      get_nested_value d po = .error .keyError) := by
  refine ⟨fun _ _ _ => rfl, ?_, ?_⟩
  · intro doc d po pn val hget hrn
    rcases hrm : remove_nested_key doc po with ⟨d₂, _ | e⟩
    · simp only [rename_nested_key, hget, hrm] at hrn
      rcases hkn : parse_key_path pn with _ | ⟨t, ts⟩
      · simp [set_nested_value, hkn] at hrn
      · simp only [set_nested_value, hkn] at hrn
        simp at hrn
        rw [get_nested_value, hkn, ← hrn]
        exact setSegs_getSegs (t :: ts) d₂ val (by simp)
    · simp only [rename_nested_key, hget, hrm] at hrn
      simp at hrn
  · intro doc d po pn hw hpre₁ hpre₂ hrn
    rcases hget : get_nested_value doc po with e | val
    · simp only [rename_nested_key, hget] at hrn
      simp at hrn
    · rcases hko : parse_key_path po with _ | ⟨s, ss⟩
      · simp [get_nested_value, hko, getSegs] at hget
        subst hget
        simp [rename_nested_key, get_nested_value, hko, getSegs,
          remove_nested_key] at hrn
      · rcases hr : removeSegs doc (s :: ss) with e₂ | d₂
        · have hrm : remove_nested_key doc po = (doc, some e₂) := by
            simp [remove_nested_key, hko, hr]
          simp only [rename_nested_key, hget, hrm] at hrn
          simp at hrn
        · have hrm : remove_nested_key doc po = (d₂, none) := by
            simp [remove_nested_key, hko, hr]
          simp only [rename_nested_key, hget, hrm] at hrn
          rcases hkn : parse_key_path pn with _ | ⟨t, ts⟩
          · simp [set_nested_value, hkn] at hrn
          · simp only [set_nested_value, hkn] at hrn
            simp at hrn
            rw [get_nested_value, hko, ← hrn]
            exact removeSegs_setSegs_getSegs (s :: ss) (t :: ts) doc d₂ _
              (by rwa [hko, hkn] at hpre₁) (by rwa [hko, hkn] at hpre₂) hw hr

/-- C7 witness: the success clauses of claim_C7 applied to a concrete
rename of a.b to c. -/
theorem claim_C7_witness :
    get_nested_value [("a", Node.table []), ("c", Node.intV 1)] "c"
      = .ok (Node.intV 1) ∧
    get_nested_value [("a", Node.table []), ("c", Node.intV 1)] "a.b"
      = .error .keyError :=
  ⟨claim_C7.2.1 [("a", Node.table [("b", Node.intV 1)])]
     [("a", Node.table []), ("c", Node.intV 1)] "a.b" "c" (Node.intV 1) rfl rfl,
   claim_C7.2.2 [("a", Node.table [("b", Node.intV 1)])]
     [("a", Node.table []), ("c", Node.intV 1)] "a.b" "c" rfl rfl rfl rfl⟩

/-- C9: on a key path whose dot-split yields no non-empty segments, get
returns the entire root document, while set and remove raise IndexError
(not the KeyError class) before touching the document. -/
theorem claim_C9 : ∀ kp : String, parse_key_path kp = [] →
    ∀ (doc : TDoc) (v : Node),
      get_nested_value doc kp = .ok (.table doc) ∧
      set_nested_value doc kp v = (doc, some .indexError) ∧
      remove_nested_key doc kp = (doc, some .indexError) := by
  intro kp h doc v
  refine ⟨?_, ?_, ?_⟩ <;>
    simp [get_nested_value, set_nested_value, remove_nested_key, h, getSegs]

/-- C9 witness: claim_C9 applied to the path consisting of a single
dot. -/
theorem claim_C9_witness :
    get_nested_value [("a", Node.intV 1)] "." = .ok (.table [("a", Node.intV 1)]) ∧
    set_nested_value [("a", Node.intV 1)] "." (Node.intV 2)
      = ([("a", Node.intV 1)], some .indexError) ∧
    remove_nested_key [("a", Node.intV 1)] "."
      = ([("a", Node.intV 1)], some .indexError) :=
  claim_C9 "." rfl [("a", Node.intV 1)] (Node.intV 2)

/-- C10: when both key paths have at least one non-empty segment, a
rename that fails with an error leaves the document unchanged, because
every failure point precedes the first mutation and the final set step
cannot raise on a non-empty path. -/
theorem claim_C10 : ∀ (doc : TDoc) (po pn : String) (d : TDoc) (e : PyErr),
    parse_key_path po ≠ [] → parse_key_path pn ≠ [] →
    rename_nested_key doc po pn = (d, some e) → d = doc := by
  intro doc po pn d e hpo hpn hrn
  rcases hget : get_nested_value doc po with e' | val
  · simp only [rename_nested_key, hget] at hrn
    simp at hrn
    exact hrn.1.symm
  · rcases hko : parse_key_path po with _ | ⟨s, ss⟩
    · exact absurd hko hpo
    · rcases hr : removeSegs doc (s :: ss) with e₂ | d₂
      · have hrm : remove_nested_key doc po = (doc, some e₂) := by
          simp [remove_nested_key, hko, hr]
        simp only [rename_nested_key, hget, hrm] at hrn
        simp at hrn
        exact hrn.1.symm
      · have hrm : remove_nested_key doc po = (d₂, none) := by
          simp [remove_nested_key, hko, hr]
        simp only [rename_nested_key, hget, hrm] at hrn
        rcases hkn : parse_key_path pn with _ | ⟨t, ts⟩
        · exact absurd hkn hpn
        · simp [set_nested_value, hkn] at hrn

/-- C10 witness: a failing rename at a concrete document with two
non-empty paths, via claim_C10. -/
theorem claim_C10_witness :
    rename_nested_key [("x", Node.intV 1)] "a" "b"
      = ([("x", Node.intV 1)], some .keyError) ∧
    ([("x", Node.intV 1)] : TDoc) = [("x", Node.intV 1)] :=
  ⟨rfl, claim_C10 [("x", Node.intV 1)] "a" "b" [("x", Node.intV 1)] .keyError
    (by decide) (by decide) rfl⟩

end Tomlcli
